import Mathlib

/-!
Verification of the fstsed scanner/match engine against its specification.

The development shallowly embeds the Rust sources:
  * `src/fstsed.rs`   — the FST match engine (`FstSed::longest_match_at`),
    the boundary-aware scanner (`FstMatches`), the scratch state;
  * `src/jsonquotes.rs` — the JSON structural-quote scanner;
  * `src/main.rs`     — the plain-mode line driver (`process_line`) and the
    JSON-mode engine construction (`runjson`);
  * `src/build.rs`    — the FST builder.

Bytes are modelled as `Nat`, a memory-mapped FST as the finite set (list) of
the byte records it stores (`KEY ++ 0x00 ++ VALUE`); the raw automaton of the
`fst` crate accepts exactly those records, so the node reached along a byte
path `p` has a transition on byte `b` exactly when some stored record extends
`p ++ [b]`, is final exactly when `p` itself is stored, and its transitions
are ordered by byte value.  The Unicode word-character predicate used by the
engine's boundary regex `^\W` is a parameter `W : Nat → Bool` (codepoint to
word-ness); every theorem that depends on its value only assumes what is true
of the real table (on ASCII codepoints, `\w` is exactly `[A-Za-z0-9_]`).
-/

/-- The byte separating key from value inside a stored record
(`const SENTINEL: u8 = 0` in `fstsed.rs` and `build.rs`). -/
def SENTINEL : Nat := 0

/-- The ASCII word class `[A-Za-z0-9_]` (the ASCII part of the regex classes
`\w` / `\W` used by `RE_UNICODE_BOUNDARY` in `fstsed.rs` and `RE_NONWORD` in
`main.rs`).  On ASCII codepoints the Unicode-mode `\w` coincides with this
class. -/
def asciiWordChar (c : Nat) : Bool :=
  (48 ≤ c && c ≤ 57) || (65 ≤ c && c ≤ 90) || (97 ≤ c && c ≤ 122) || c == 95

/-- Strict UTF-8 decoding of the first scalar value of a byte sequence, as
performed by the `regex::bytes` engine when matching the Unicode-mode pattern
`^\W` (`RE_UNICODE_BOUNDARY`): continuation bytes must be in range, overlong
encodings, surrogates and values above U+10FFFF are rejected. -/
def utf8Decode1 : List Nat → Option Nat
  | [] => none
  | b0 :: rest =>
    if b0 < 128 then some b0
    else if 194 ≤ b0 && b0 ≤ 223 then
      match rest with
      | b1 :: _ =>
        if 128 ≤ b1 && b1 ≤ 191 then some ((b0 - 192) * 64 + (b1 - 128)) else none
      | [] => none
    else if 224 ≤ b0 && b0 ≤ 239 then
      match rest with
      | b1 :: b2 :: _ =>
        let lo1 := if b0 == 224 then 160 else 128
        let hi1 := if b0 == 237 then 159 else 191
        if (lo1 ≤ b1 && b1 ≤ hi1) && (128 ≤ b2 && b2 ≤ 191) then
          some ((b0 - 224) * 4096 + (b1 - 128) * 64 + (b2 - 128))
        else none
      | _ => none
    else if 240 ≤ b0 && b0 ≤ 244 then
      match rest with
      | b1 :: b2 :: b3 :: _ =>
        let lo1 := if b0 == 240 then 144 else 128
        let hi1 := if b0 == 244 then 143 else 191
        if (lo1 ≤ b1 && b1 ≤ hi1) && (128 ≤ b2 && b2 ≤ 191) && (128 ≤ b3 && b3 ≤ 191) then
          some ((b0 - 240) * 262144 + (b1 - 128) * 4096 + (b2 - 128) * 64 + (b3 - 128))
        else none
      | _ => none
    else none

/-- `RE_UNICODE_BOUNDARY.is_match s` for the anchored pattern `^\W`
(`fstsed.rs` line 30): true exactly when `s` starts with a validly encoded
scalar value that is not a word character (`W` is the Unicode word table). -/
def reBoundary (W : Nat → Bool) (s : List Nat) : Bool :=
  match utf8Decode1 s with
  | some c => !(W c)
  | none => false

/-- `node.find_input b` viewed through the record set: the node reached along
byte path `p` in the raw FST automaton has a transition on `b` exactly when
some stored record extends `p ++ [b]`. -/
def findInput (fst : List (List Nat)) (p : List Nat) (b : Nat) : Bool :=
  fst.any (fun r => (p ++ [b]).isPrefixOf r)

/-- `node.is_final()`: the node reached along `p` is final exactly when `p`
itself is a stored record. -/
def isFinalNode (fst : List (List Nat)) (p : List Nat) : Bool :=
  fst.any (fun r => r == p)

/-- `node.transitions().next()`: the automaton orders transitions by byte
value, so the first transition out of the node reached along `p` is the least
byte `b` for which a stored record extends `p ++ [b]`. -/
def firstTransition (fst : List (List Nat)) (p : List Nat) : Option Nat :=
  (List.range 256).find? (fun b => findInput fst p b)

/-- Length of the longest stored record; bounds the depth of any automaton
walk. -/
def maxRecLen (fst : List (List Nat)) : Nat :=
  fst.foldr (fun r acc => max r.length acc) 0

/-- The post-sentinel value walk of `longest_match_at` (`fstsed.rs` lines
278-290): starting from the node reached along `p`, while the node is not
final take the first transition, appending its input byte; `fuel` bounds the
number of steps, and the returned flag records whether the walk stopped of
its own accord (final node reached, or no transitions left) rather than by
exhausting the fuel. -/
def valueWalk (fst : List (List Nat)) : Nat → List Nat → List Nat × Bool
  | 0, _ => ([], false)
  | fuel + 1, p =>
    if isFinalNode fst p then ([], true)
    else
      match firstTransition fst p with
      | none => ([], true)
      | some b =>
        let r := valueWalk fst fuel (p ++ [b])
        (b :: r.1, r.2)

/-- The engine's mutable scratch (`FstSed.keycache`, `FstSed.valuecache`,
`FstSed.startcache`). -/
structure Scratch where
  keycache : List Nat
  valuecache : List Nat
  startcache : Nat
deriving DecidableEq, Repr

/-- The loop body of `FstSed::longest_match_at` (`fstsed.rs` lines 253-298):
`value` is `text[start..]`, `rest` the not-yet-consumed suffix of `value`,
`i` the current index, `p` the byte path to the current automaton node,
`last` the `last_match` variable and `s` the scratch.  On acceptance the
scratch is cleared and repopulated (`self.clear()`, key copy, start, value
walk); when a byte has no transition the current `last` is returned. -/
def lmGo (fst : List (List Nat)) (W : Nat → Bool) (value : List Nat) (start : Nat) :
    List Nat → Nat → List Nat → Option Nat → Scratch → Option Nat × Scratch
  | [], _, _, last, s => (last, s)
  | b :: rest, i, p, last, s =>
    if findInput fst p b then
      if findInput fst (p ++ [b]) SENTINEL then
        if i + 1 == value.length || reBoundary W (value.drop (i + 1)) then
          lmGo fst W value start rest (i + 1) (p ++ [b]) (some (i + 1))
            { keycache := value.take (i + 1),
              valuecache := (valueWalk fst (maxRecLen fst + 1) (p ++ [b] ++ [SENTINEL])).1,
              startcache := start }
        else
          lmGo fst W value start rest (i + 1) (p ++ [b]) last s
      else
        lmGo fst W value start rest (i + 1) (p ++ [b]) last s
    else (last, s)

/-- `FstSed::longest_match_at(text, start)`: walk the automaton over
`text[start..]` tracking the longest accepted key; returns the match length
and the scratch after the call. -/
def longestMatchAt (fst : List (List Nat)) (W : Nat → Bool) (text : List Nat)
    (start : Nat) (s : Scratch) : Option Nat × Scratch :=
  lmGo fst W (text.drop start) start (text.drop start) 0 [] none s

/-- `FstSed::longest_match(text)` = `longest_match_at(text, 0)`. -/
def longestMatch (fst : List (List Nat)) (W : Nat → Bool) (text : List Nat)
    (s : Scratch) : Option Nat × Scratch :=
  longestMatchAt fst W text 0 s

/-- A length `n` is an accepted candidate of the walk over `value`: nonzero,
within bounds, the node reached along `value.take n` has a SENTINEL
transition, and the acceptance boundary holds (end of slice, or `^\W`
matches the remaining suffix). -/
def acceptedB (fst : List (List Nat)) (W : Nat → Bool) (value : List Nat) (n : Nat) : Bool :=
  decide (1 ≤ n) && decide (n ≤ value.length) &&
    findInput fst (value.take n) SENTINEL &&
    (n == value.length || reBoundary W (value.drop n))

/-- The guarded loop body of `longest_match_at`: identical to `lmGo` but the
slice accesses carry their Rust bounds obligations (`&value[i+1..]` requires
`i + 1 ≤ value.len()`), and the post-sentinel walk must stop of its own
accord; a violated obligation yields `none` (a panic or divergence in Rust). -/
def lmGoChecked (fst : List (List Nat)) (W : Nat → Bool) (value : List Nat) (start : Nat) :
    List Nat → Nat → List Nat → Option Nat → Scratch → Option (Option Nat × Scratch)
  | [], _, _, last, s => some (last, s)
  | b :: rest, i, p, last, s =>
    if findInput fst p b then
      if findInput fst (p ++ [b]) SENTINEL then
        if i + 1 == value.length then
          let w := valueWalk fst (maxRecLen fst + 1) (p ++ [b] ++ [SENTINEL])
          if w.2 then
            lmGoChecked fst W value start rest (i + 1) (p ++ [b]) (some (i + 1))
              { keycache := value.take (i + 1), valuecache := w.1, startcache := start }
          else none
        else if i + 1 ≤ value.length then
          if reBoundary W (value.drop (i + 1)) then
            let w := valueWalk fst (maxRecLen fst + 1) (p ++ [b] ++ [SENTINEL])
            if w.2 then
              lmGoChecked fst W value start rest (i + 1) (p ++ [b]) (some (i + 1))
                { keycache := value.take (i + 1), valuecache := w.1, startcache := start }
            else none
          else
            lmGoChecked fst W value start rest (i + 1) (p ++ [b]) last s
        else none
      else
        lmGoChecked fst W value start rest (i + 1) (p ++ [b]) last s
    else some (last, s)

/-- `longest_match_at` with the Rust bounds obligations explicit: the initial
slice `&text[start..]` requires `start ≤ text.len()`; `none` stands for a
panic (or a diverging value walk). -/
def longestMatchAtChecked (fst : List (List Nat)) (W : Nat → Bool) (text : List Nat)
    (start : Nat) (s : Scratch) : Option (Option Nat × Scratch) :=
  if start ≤ text.length then
    lmGoChecked fst W (text.drop start) start (text.drop start) 0 [] none s
  else none

/-- The scanner's seed byte class, `RE_NONWORD` of `fstsed.rs` (line 24):
the regex class given by the comma, space, tab, bell, newline, colon, equals
and double-quote bytes. -/
def seedByte (b : Nat) : Bool :=
  b == 44 || b == 32 || b == 9 || b == 7 || b == 10 || b == 58 || b == 61 || b == 34

/-- The match positions of `RE_NONWORD.find_iter(haystack)`: every index
holding a seed-class byte, in increasing order. -/
def seedPositions (h : List Nat) : List Nat :=
  (List.range h.length).filter (fun p => seedByte (h.getD p 0))

/-- Drop a seed while its position is at most `bound`: the advance loop of
`FstMatches::next` (`fstsed.rs` lines 139-144), which peeks and discards
seeds whose start is `≤ match_start + match_len`. -/
def dropConsumed (bound : Nat) : List Nat → List Nat
  | [] => []
  | m :: seeds => if m ≤ bound then dropConsumed bound seeds else m :: seeds

/-- The probe loop of `FstMatches::next` (`fstsed.rs` lines 109-126): pop a
seed `m`, probe the engine at `m + skip`; on failure continue with the next
seed and `skip = 1`.  Returns the remaining seeds and the skip in force at
the successful probe (`none` when the seeds are exhausted), together with the
engine scratch after the calls. -/
def fmFind (fst : List (List Nat)) (W : Nat → Bool) (h : List Nat) :
    List Nat → Nat → Scratch → Option (List Nat × Nat) × Scratch
  | [], _, s => (none, s)
  | m :: seeds, sk, s =>
    let r := longestMatchAt fst W h (m + sk) s
    if (r.1).isSome then (some (seeds, sk), r.2) else fmFind fst W h seeds 1 r.2

/-- Driving `FstMatches` to exhaustion: each step is one call to
`FstMatches::next`, yielding `(get_match_start(), get_match_len())` and then
discarding the seeds inside the accepted span; `fuel` bounds the number of
steps (each step consumes at least one seed, so any fuel above the seed count
is enough).  Also returns the final engine scratch. -/
def fmRun (fst : List (List Nat)) (W : Nat → Bool) (h : List Nat) :
    Nat → List Nat → Nat → Scratch → List (Nat × Nat) × Scratch
  | 0, _, _, s => ([], s)
  | fuel + 1, seeds, sk, s =>
    match fmFind fst W h seeds sk s with
    | (none, s1) => ([], s1)
    | (some (seeds1, sk1), s1) =>
      let r := fmRun fst W h fuel (dropConsumed (s1.startcache + s1.keycache.length) seeds1) sk1 s1
      ((s1.startcache, s1.keycache.length) :: r.1, r.2)

/-- The full match stream of `FstSed::find_iter(h)` started with scratch `s`:
the seed source is the chained pair of regex iterators (`RE_START` yielding
position 0, then `RE_NONWORD` yielding every seed-class byte position), the
initial skip is 0.  Yields the `(start, len)` pairs read from the scratch at
yield time. -/
def fstMatches (fst : List (List Nat)) (W : Nat → Bool) (h : List Nat) (s : Scratch) :
    List (Nat × Nat) :=
  (fmRun fst W h (h.length + 2) (0 :: seedPositions h) 0 s).1

/-- `RE_NONWORD.find(input)` of `main.rs` (line 20, pattern `(?i-u)\W`): the
first index holding a byte outside the ASCII word class. -/
def firstNonWord (input : List Nat) : Option Nat :=
  (List.range input.length).find? (fun j => !asciiWordChar (input.getD j 0))

/-- The first loop of `process_line` (`main.rs` lines 191-199): for each
scanner match, write `input[_lastpos..=m.start()]` (inclusive of the match's
first byte; the rendered-match write is commented out in the source) and set
`_lastpos = m.start() + match_len`. -/
def plFirstLoop (input : List Nat) : List (Nat × Nat) → Nat → List Nat
  | [], _ => []
  | (st, len) :: ms, lastpos =>
    (input.drop lastpos).take (st + 1 - lastpos) ++ plFirstLoop input ms (st + len)

/-- The second loop of `process_line` (`main.rs` lines 201-223): repeatedly
call `longest_match` on the remaining slice; on failure write up to and
including the first non-word byte and continue past it (or write the whole
remainder when none), on success silently skip the matched span (the
rendered-match write is commented out in the source).  `fuel` bounds the
iterations; every iteration consumes at least one byte. -/
def plSecondLoop (fst : List (List Nat)) (W : Nat → Bool) :
    Nat → List Nat → Scratch → List Nat
  | 0, _, _ => []
  | fuel + 1, input, s =>
    if input.isEmpty then []
    else
      match longestMatchAt fst W input 0 s with
      | (none, s1) =>
        match firstNonWord input with
        | some j => input.take (j + 1) ++ plSecondLoop fst W fuel (input.drop (j + 1)) s1
        | none => input
      | (some len, s1) => plSecondLoop fst W fuel (input.drop len) s1

/-- `process_line(input, fsed, out)` (`main.rs` lines 185-225): run the
scanner iterator loop, then the `longest_match` loop over the whole line
(sharing the engine scratch), concatenating everything written to `out`. -/
def processLine (fst : List (List Nat)) (W : Nat → Bool) (input : List Nat)
    (s : Scratch) : List Nat :=
  let r := fmRun fst W input (input.length + 2) (0 :: seedPositions input) 0 s
  plFirstLoop input r.1 0 ++ plSecondLoop fst W (input.length + 1) input r.2

/-- The state fold of `JsonQuotes::next` (`jsonquotes.rs` lines 29-55) over
the enumerated haystack, collecting the indices of structural double quotes.
`e` is `lastescape`.  Only bytes 34 (`"`) and 92 (`\`) are visited by the
`memchr2` iterator; other bytes leave the state unchanged.  The Rust
comparison `lastescape == index - 1` is on `usize` with wrapping at index 0
(release build), which over `Nat` is `e + 1 == i`. -/
def jqGo : List (Nat × Nat) → Nat → List Nat
  | [], _ => []
  | (i, b) :: rest, e =>
    if b == 34 then
      if e > 0 && e + 1 == i then jqGo rest 0
      else i :: jqGo rest 0
    else if b == 92 then
      if e + 1 == i then jqGo rest 0 else jqGo rest i
    else jqGo rest e

/-- The flat feed of structural-quote indices produced by iterating
`JsonQuotes::new(haystack)` to exhaustion. -/
def jsonQuotesIdx (h : List Nat) : List Nat :=
  jqGo h.enum 0

/-- `IterArrayChunks::array_chunks::<2>` followed by `map |[a, b]| (a, b+1)`
(`jsonquotes.rs` lines 69-75): pair successive indices, adding 1 to the close
so both quotes are inside the range; a trailing unpaired index is dropped. -/
def pairChunks : List Nat → List (Nat × Nat)
  | a :: b :: rest => (a, b + 1) :: pairChunks rest
  | _ => []

/-- `jsonquotes_range_iter(haystack)` collected into a list. -/
def jsonquotesRanges (h : List Nat) : List (Nat × Nat) :=
  pairChunks (jsonQuotesIdx h)

/-- Lexer state for standard JSON string tokenization: outside any string,
inside a string opened at a given index, or inside a string right after a
backslash. -/
inductive JState where
  | outside : JState
  | inStr : Nat → JState
  | esc : Nat → JState

/-- Standard JSON string tokenization, the comparison point of the quote
scanner correctness claim (spec §8.7).  Outside a string a `"` opens a
token and a `\` is invalid (standard JSON never has a backslash outside a
string literal; `none` marks such input); inside, `\` escapes the next byte
and an unescaped `"` closes the token.  Completed tokens are returned as
`(open, close+1)` so both quote bytes are inside the range; a string still
open at end of input contributes nothing. -/
def lexGo : List (Nat × Nat) → JState → Option (List (Nat × Nat))
  | [], _ => some []
  | (i, b) :: rest, JState.outside =>
    if b == 34 then lexGo rest (JState.inStr i)
    else if b == 92 then none
    else lexGo rest JState.outside
  | (i, b) :: rest, JState.inStr o =>
    if b == 34 then (lexGo rest JState.outside).map (fun ts => (o, i + 1) :: ts)
    else if b == 92 then lexGo rest (JState.esc o)
    else lexGo rest (JState.inStr o)
  | (_, _) :: rest, JState.esc o => lexGo rest (JState.inStr o)

/-- The byte ranges of the string tokens of standard JSON parsing, inclusive
of both quote bytes as `(open, close+1)`; `none` on input that is not
standard JSON string syntax. -/
def jsonStringTokens (h : List Nat) : Option (List (Nat × Nat)) :=
  lexGo h.enum JState.outside

/-- A file system for the builder model: an association of paths to byte
contents. -/
def FileSys : Type := List (String × List Nat)

/-- Whether a path exists in the file system. -/
def fsExists (fs : FileSys) (path : String) : Bool :=
  fs.any (fun e => e.1 == path)

/-- The file write of `build_fstsed` (`build.rs` line 77,
`File::create(output)`): creates the output, truncating any existing file at
that path. -/
def buildFstsedWrite (fs : FileSys) (path : String) (content : List Nat) : FileSys :=
  (path, content) :: fs.filter (fun e => !(e.1 == path))

/-- Modelled from the spec: the builder command-line shell is outside `src/`
(spec §1 lists it as an external collaborator and `main.rs` has no build
flag); per spec §4.1 step 5 it refuses to overwrite an existing output path
with a pre-existence check that fails with a user-visible error before any
write, and otherwise calls `build_fstsed`, which creates the output file. -/
def buildMode (fs : FileSys) (path : String) (content : List Nat) :
    FileSys × Except String Unit :=
  if fsExists fs path then
    (fs, Except.error "output path already exists")
  else
    (buildFstsedWrite fs path content, Except.ok ())

/-- `termcolor::ColorChoice` (the variants the program produces and tests). -/
inductive ColorChoiceM where
  | always : ColorChoiceM
  | never : ColorChoiceM
  | auto : ColorChoiceM
deriving DecidableEq, Repr

/-- The `-C` flag values (`ArgsColorChoice` in `main.rs`). -/
inductive ArgsColorChoiceM where
  | always : ArgsColorChoiceM
  | never : ArgsColorChoiceM
  | auto : ArgsColorChoiceM
deriving DecidableEq, Repr

/-- `main.rs` lines 99-109: resolve the `-C` flag to a color mode, `auto`
meaning "color exactly when stdout is a tty". -/
def resolveColor : ArgsColorChoiceM → Bool → ColorChoiceM
  | ArgsColorChoiceM.auto, tty => if tty then ColorChoiceM.always else ColorChoiceM.never
  | ArgsColorChoiceM.always, _ => ColorChoiceM.always
  | ArgsColorChoiceM.never, _ => ColorChoiceM.never

/-- The default template `<{key}|{value}>` as bytes (`fstsed.rs` line 181). -/
def defaultTemplate : List Nat :=
  [60, 123, 107, 101, 121, 125, 124, 123, 118, 97, 108, 117, 101, 125, 62]

/-- The ANSI escape `ESC[1;31m` prepended to the template when color is on
(`fstsed.rs` line 186). -/
def ansiPre : List Nat := [27, 91, 49, 59, 51, 49, 109]

/-- The ANSI escape `ESC[0;0m` appended to the template when color is on
(`fstsed.rs` line 186). -/
def ansiPost : List Nat := [27, 91, 48, 59, 48, 109]

/-- The template construction of `FstSed::new` (`fstsed.rs` lines 180-187):
take the user template or the default, and bookend it with the ANSI red
escapes exactly when the color choice is `Always`. -/
def mkTemplate (user : Option (List Nat)) (color : ColorChoiceM) : List Nat :=
  let t := user.getD defaultTemplate
  if color = ColorChoiceM.always then ansiPre ++ t ++ ansiPost else t

/-- The template of the engine built by `runjson` (`main.rs` line 133):
`FstSed::new(args.fst, args.template, colormode)` with `colormode` exactly as
resolved in `main` — JSON mode does not override the color choice. -/
def runjsonTemplate (flag : ArgsColorChoiceM) (istty : Bool)
    (user : Option (List Nat)) : List Nat :=
  mkTemplate user (resolveColor flag istty)

/-! ### Helper lemmas about the match-engine walk -/

lemma findInput_true_of_mem {fst : List (List Nat)} {r p : List Nat} {b : Nat}
    (hr : r ∈ fst) (hp : p ++ [b] <+: r) : findInput fst p b = true := by
  unfold findInput
  exact List.any_eq_true.mpr ⟨r, hr, List.isPrefixOf_iff_prefix.mpr hp⟩

lemma findInput_exists {fst : List (List Nat)} {p : List Nat} {b : Nat}
    (h : findInput fst p b = true) : ∃ r, r ∈ fst ∧ p ++ [b] <+: r := by
  unfold findInput at h
  obtain ⟨r, hr, hpre⟩ := List.any_eq_true.mp h
  exact ⟨r, hr, List.isPrefixOf_iff_prefix.mp hpre⟩

lemma drop_cons_lt {value rest : List Nat} {b : Nat} {i : Nat}
    (h : value.drop i = b :: rest) : i < value.length := by
  have := List.length_drop i value
  rw [h] at this
  simp at this
  omega

lemma drop_cons_take {value rest : List Nat} {b : Nat} {i : Nat}
    (h : value.drop i = b :: rest) : value.take (i + 1) = value.take i ++ [b] := by
  rw [List.take_add, h]
  rfl

lemma drop_cons_drop {value rest : List Nat} {b : Nat} {i : Nat}
    (h : value.drop i = b :: rest) : value.drop (i + 1) = rest := by
  have : (value.drop i).drop 1 = value.drop (i + 1) := by
    rw [List.drop_drop]
  rw [← this, h]
  rfl

lemma acceptedB_iff (fst : List (List Nat)) (W : Nat → Bool) (value : List Nat) (n : Nat) :
    acceptedB fst W value n = true ↔
      1 ≤ n ∧ n ≤ value.length ∧ findInput fst (value.take n) SENTINEL = true ∧
        (n = value.length ∨ reBoundary W (value.drop n) = true) := by
  simp [acceptedB, Bool.and_eq_true, Bool.or_eq_true, decide_eq_true_eq, Nat.beq_eq_true_eq,
    and_assoc]

lemma lmGo_some_ge (fst : List (List Nat)) (W : Nat → Bool) (value : List Nat) (start : Nat) :
    ∀ (rest : List Nat) (i : Nat) (p : List Nat) (last : Option Nat) (s : Scratch) (l : Nat),
      last = some l → l ≤ i →
      ∃ m, (lmGo fst W value start rest i p last s).1 = some m ∧ l ≤ m := by
  intro rest
  induction rest with
  | nil =>
    intro i p last s l hl _
    exact ⟨l, by simp [lmGo, hl], Nat.le_refl l⟩
  | cons b rest ih =>
    intro i p last s l hl hle
    by_cases h1 : findInput fst p b = true
    · by_cases h2 : findInput fst (p ++ [b]) SENTINEL = true
      · by_cases h3 : (i + 1 == value.length || reBoundary W (value.drop (i + 1))) = true
        · simp only [lmGo, if_pos h1, if_pos h2, if_pos h3]
          obtain ⟨m, hm, hlm⟩ := ih (i + 1) (p ++ [b]) (some (i + 1)) _ (i + 1) rfl (Nat.le_refl _)
          exact ⟨m, hm, by omega⟩
        · simp only [lmGo, if_pos h1, if_pos h2, if_neg h3]
          exact ih (i + 1) (p ++ [b]) last s l hl (by omega)
      · simp only [lmGo, if_pos h1, if_neg h2]
        exact ih (i + 1) (p ++ [b]) last s l hl (by omega)
    · simp only [lmGo, if_neg h1]
      exact ⟨l, by simp [hl], Nat.le_refl l⟩

lemma lmGo_none_eq (fst : List (List Nat)) (W : Nat → Bool) (value : List Nat) (start : Nat) :
    ∀ (rest : List Nat) (i : Nat) (p : List Nat) (last : Option Nat) (s : Scratch),
      (lmGo fst W value start rest i p last s).1 = none →
      (lmGo fst W value start rest i p last s).2 = s := by
  intro rest
  induction rest with
  | nil => intro i p last s _; simp [lmGo]
  | cons b rest ih =>
    intro i p last s hnone
    by_cases h1 : findInput fst p b = true
    · by_cases h2 : findInput fst (p ++ [b]) SENTINEL = true
      · by_cases h3 : (i + 1 == value.length || reBoundary W (value.drop (i + 1))) = true
        · exfalso
          obtain ⟨m, hm, _⟩ := lmGo_some_ge fst W value start rest (i + 1) (p ++ [b])
            (some (i + 1)) _ (i + 1) rfl (Nat.le_refl _)
          rw [show lmGo fst W value start (b :: rest) i p last s
              = lmGo fst W value start rest (i + 1) (p ++ [b]) (some (i + 1))
                { keycache := value.take (i + 1),
                  valuecache := (valueWalk fst (maxRecLen fst + 1) (p ++ [b] ++ [SENTINEL])).1,
                  startcache := start }
            from by simp only [lmGo, if_pos h1, if_pos h2, if_pos h3]] at hnone
          rw [hnone] at hm
          exact Option.noConfusion hm
        · simp only [lmGo, if_pos h1, if_pos h2, if_neg h3] at hnone ⊢
          exact ih (i + 1) (p ++ [b]) last s hnone
      · simp only [lmGo, if_pos h1, if_neg h2] at hnone ⊢
        exact ih (i + 1) (p ++ [b]) last s hnone
    · simp [lmGo, if_neg h1]

lemma lmGo_some_props (fst : List (List Nat)) (W : Nat → Bool) (value : List Nat) (start : Nat) :
    ∀ (rest : List Nat) (i : Nat) (p : List Nat) (last : Option Nat) (s : Scratch),
      rest = value.drop i →
      (∀ l, last = some l →
        s.startcache = start ∧ s.keycache = value.take l ∧ 1 ≤ l ∧ l ≤ value.length) →
      ∀ m, (lmGo fst W value start rest i p last s).1 = some m →
        (lmGo fst W value start rest i p last s).2.startcache = start ∧
        (lmGo fst W value start rest i p last s).2.keycache = value.take m ∧
        1 ≤ m ∧ m ≤ value.length := by
  intro rest
  induction rest with
  | nil =>
    intro i p last s _ hinv m hm
    simp only [lmGo] at hm ⊢
    exact hinv m hm
  | cons b rest ih =>
    intro i p last s hrest hinv m hm
    have hlt : i < value.length := drop_cons_lt hrest.symm
    by_cases h1 : findInput fst p b = true
    · by_cases h2 : findInput fst (p ++ [b]) SENTINEL = true
      · by_cases h3 : (i + 1 == value.length || reBoundary W (value.drop (i + 1))) = true
        · simp only [lmGo, if_pos h1, if_pos h2, if_pos h3] at hm ⊢
          refine ih (i + 1) (p ++ [b]) (some (i + 1)) _ (drop_cons_drop hrest.symm).symm ?_ m hm
          intro l hl
          obtain rfl : i + 1 = l := Option.some.inj hl
          exact ⟨rfl, rfl, by omega, by omega⟩
        · simp only [lmGo, if_pos h1, if_pos h2, if_neg h3] at hm ⊢
          exact ih (i + 1) (p ++ [b]) last s (drop_cons_drop hrest.symm).symm hinv m hm
      · simp only [lmGo, if_pos h1, if_neg h2] at hm ⊢
        exact ih (i + 1) (p ++ [b]) last s (drop_cons_drop hrest.symm).symm hinv m hm
    · simp only [lmGo, if_neg h1] at hm ⊢
      exact hinv m hm

lemma lmGo_complete (fst : List (List Nat)) (W : Nat → Bool) (value : List Nat) (start : Nat)
    (n : Nat) (hacc : acceptedB fst W value n = true) :
    ∀ (rest : List Nat) (i : Nat) (last : Option Nat) (s : Scratch),
      rest = value.drop i → i < n →
      ∃ m, (lmGo fst W value start rest i (value.take i) last s).1 = some m ∧ n ≤ m := by
  obtain ⟨hn1, hnlen, hsent, hbound⟩ := (acceptedB_iff fst W value n).mp hacc
  obtain ⟨r, hr, hpre⟩ := findInput_exists hsent
  intro rest
  induction rest with
  | nil =>
    intro i last s hrest hin
    exfalso
    have := List.drop_eq_nil_iff.mp hrest.symm
    omega
  | cons b rest ih =>
    intro i last s hrest hin
    -- the walk can always take the transition on b while i < n
    have htake : value.take (i + 1) = value.take i ++ [b] := drop_cons_take hrest.symm
    have htpre : value.take (i + 1) <+: value.take n := by
      have h1 : (value.take n).take (i + 1) = value.take (i + 1) := by
        rw [List.take_take]
        congr 1
        omega
      rw [← h1]
      exact List.take_prefix _ _
    have h1 : findInput fst (value.take i) b = true := by
      refine findInput_true_of_mem hr ?_
      rw [← htake]
      calc value.take (i + 1) <+: value.take n := htpre
        _ <+: value.take n ++ [SENTINEL] := List.prefix_append _ _
        _ <+: r := hpre
    rcases Nat.lt_or_ge (i + 1) n with hlt | hge
    · -- not yet at the accepted length: recurse whatever the branch outcome
      have hrest' : rest = value.drop (i + 1) := (drop_cons_drop hrest.symm).symm
      by_cases h2 : findInput fst (value.take i ++ [b]) SENTINEL = true
      · by_cases h3 : (i + 1 == value.length || reBoundary W (value.drop (i + 1))) = true
        · simp only [lmGo, if_pos h1, if_pos h2, if_pos h3]
          rw [← htake]
          exact ih (i + 1) (some (i + 1)) _ hrest' hlt
        · simp only [lmGo, if_pos h1, if_pos h2, if_neg h3]
          rw [← htake]
          exact ih (i + 1) last s hrest' hlt
      · simp only [lmGo, if_pos h1, if_neg h2]
        rw [← htake]
        exact ih (i + 1) last s hrest' hlt
    · -- i + 1 = n: the acceptance branch fires
      have hn : n = i + 1 := by omega
      subst hn
      have h2 : findInput fst (value.take i ++ [b]) SENTINEL = true := by
        rw [← htake]; exact hsent
      have h3 : (i + 1 == value.length || reBoundary W (value.drop (i + 1))) = true := by
        rcases hbound with h | h
        · simp [h]
        · simp [h]
      simp only [lmGo, if_pos h1, if_pos h2, if_pos h3]
      exact lmGo_some_ge fst W value start rest (i + 1) (value.take i ++ [b])
        (some (i + 1)) _ (i + 1) rfl (Nat.le_refl _)

lemma lmGo_sound (fst : List (List Nat)) (W : Nat → Bool) (value : List Nat) (start : Nat) :
    ∀ (rest : List Nat) (i : Nat) (last : Option Nat) (s : Scratch),
      rest = value.drop i →
      (∀ l, last = some l → acceptedB fst W value l = true) →
      ∀ m, (lmGo fst W value start rest i (value.take i) last s).1 = some m →
        acceptedB fst W value m = true := by
  intro rest
  induction rest with
  | nil =>
    intro i last s _ hinv m hm
    simp only [lmGo] at hm
    exact hinv m hm
  | cons b rest ih =>
    intro i last s hrest hinv m hm
    have hlt : i < value.length := drop_cons_lt hrest.symm
    have htake : value.take (i + 1) = value.take i ++ [b] := drop_cons_take hrest.symm
    have hrest' : rest = value.drop (i + 1) := (drop_cons_drop hrest.symm).symm
    by_cases h1 : findInput fst (value.take i) b = true
    · by_cases h2 : findInput fst (value.take i ++ [b]) SENTINEL = true
      · by_cases h3 : (i + 1 == value.length || reBoundary W (value.drop (i + 1))) = true
        · simp only [lmGo, if_pos h1, if_pos h2, if_pos h3] at hm
          rw [← htake] at hm
          refine ih (i + 1) (some (i + 1)) _ hrest' ?_ m hm
          intro l hl
          obtain rfl : i + 1 = l := Option.some.inj hl
          refine (acceptedB_iff fst W value (i + 1)).mpr ⟨by omega, by omega, ?_, ?_⟩
          · rw [htake]; exact h2
          · simpa using h3
        · simp only [lmGo, if_pos h1, if_pos h2, if_neg h3] at hm
          rw [← htake] at hm
          exact ih (i + 1) last s hrest' hinv m hm
      · simp only [lmGo, if_pos h1, if_neg h2] at hm
        rw [← htake] at hm
        exact ih (i + 1) last s hrest' hinv m hm
    · simp only [lmGo, if_neg h1] at hm
      exact hinv m hm

lemma lm_props {fst : List (List Nat)} {W : Nat → Bool} {text : List Nat} {start : Nat}
    {s : Scratch} {n : Nat} (h : (longestMatchAt fst W text start s).1 = some n) :
    (longestMatchAt fst W text start s).2.startcache = start ∧
    (longestMatchAt fst W text start s).2.keycache = (text.drop start).take n ∧
    1 ≤ n ∧ n ≤ (text.drop start).length :=
  lmGo_some_props fst W (text.drop start) start (text.drop start) 0 [] none s
    (List.drop_zero _).symm (fun _ hl => Option.noConfusion hl) n h

lemma lm_sound {fst : List (List Nat)} {W : Nat → Bool} {text : List Nat} {start : Nat}
    {s : Scratch} {n : Nat} (h : (longestMatchAt fst W text start s).1 = some n) :
    acceptedB fst W (text.drop start) n = true :=
  lmGo_sound fst W (text.drop start) start (text.drop start) 0 none s
    (List.drop_zero _).symm (fun _ hl => Option.noConfusion hl) n h

lemma lm_complete {fst : List (List Nat)} {W : Nat → Bool} {text : List Nat} {start : Nat}
    {s : Scratch} {n : Nat} (h : acceptedB fst W (text.drop start) n = true) :
    ∃ m, (longestMatchAt fst W text start s).1 = some m ∧ n ≤ m := by
  have h1 : 1 ≤ n := ((acceptedB_iff _ _ _ _).mp h).1
  exact lmGo_complete fst W (text.drop start) start n h (text.drop start) 0 none s
    (List.drop_zero _).symm (by omega)

lemma lm_none_eq {fst : List (List Nat)} {W : Nat → Bool} {text : List Nat} {start : Nat}
    {s : Scratch} (h : (longestMatchAt fst W text start s).1 = none) :
    (longestMatchAt fst W text start s).2 = s :=
  lmGo_none_eq fst W (text.drop start) start (text.drop start) 0 [] none s h

lemma mem_length_le_maxRecLen {fst : List (List Nat)} {r : List Nat} (hr : r ∈ fst) :
    r.length ≤ maxRecLen fst := by
  induction fst with
  | nil => cases hr
  | cons x fst ih =>
    rcases List.mem_cons.mp hr with rfl | hmem
    · simp [maxRecLen]
    · have := ih hmem
      simp only [maxRecLen, List.foldr] at *
      omega

lemma valueWalk_ends (fst : List (List Nat)) :
    ∀ (fuel : Nat) (p : List Nat), maxRecLen fst + 1 ≤ p.length + fuel → 1 ≤ fuel →
      (valueWalk fst fuel p).2 = true := by
  intro fuel
  induction fuel with
  | zero => intro p _ h; omega
  | succ fuel ih =>
    intro p hle _
    by_cases hf : isFinalNode fst p = true
    · simp [valueWalk, hf]
    · cases hft : firstTransition fst p with
      | none => simp [valueWalk, hf, hft]
      | some b =>
        have hfi : findInput fst p b = true := List.find?_some hft
        obtain ⟨r, hr, hpre⟩ := findInput_exists hfi
        have hlen : p.length + 1 ≤ r.length := by
          have := hpre.length_le
          simpa using this
        have hmax : r.length ≤ maxRecLen fst := mem_length_le_maxRecLen hr
        have hfuel : 1 ≤ fuel := by omega
        have := ih (p ++ [b]) (by simp; omega) hfuel
        simp [valueWalk, hf, hft, this]

lemma valueWalk_std (fst : List (List Nat)) (p : List Nat) :
    (valueWalk fst (maxRecLen fst + 1) p).2 = true :=
  valueWalk_ends fst (maxRecLen fst + 1) p (by omega) (by omega)

lemma lmGoChecked_eq (fst : List (List Nat)) (W : Nat → Bool) (value : List Nat) (start : Nat) :
    ∀ (rest : List Nat) (i : Nat) (p : List Nat) (last : Option Nat) (s : Scratch),
      rest = value.drop i →
      lmGoChecked fst W value start rest i p last s =
        some (lmGo fst W value start rest i p last s) := by
  intro rest
  induction rest with
  | nil => intro i p last s _; simp [lmGoChecked, lmGo]
  | cons b rest ih =>
    intro i p last s hrest
    have hlt : i < value.length := drop_cons_lt hrest.symm
    have hrest' : rest = value.drop (i + 1) := (drop_cons_drop hrest.symm).symm
    have hwalk := valueWalk_std fst (p ++ [b] ++ [SENTINEL])
    by_cases h1 : findInput fst p b = true
    · by_cases h2 : findInput fst (p ++ [b]) SENTINEL = true
      · by_cases heq : (i + 1 == value.length) = true
        · have h3 : (i + 1 == value.length || reBoundary W (value.drop (i + 1))) = true := by
            simp [heq]
          simp only [lmGoChecked, lmGo, if_pos h1, if_pos h2, if_pos heq, if_pos h3, hwalk,
            if_true]
          exact ih (i + 1) (p ++ [b]) _ _ hrest'
        · have hle : i + 1 ≤ value.length := by omega
          by_cases hb : reBoundary W (value.drop (i + 1)) = true
          · have h3 : (i + 1 == value.length || reBoundary W (value.drop (i + 1))) = true := by
              simp [hb]
            simp only [lmGoChecked, lmGo, if_pos h1, if_pos h2, if_neg heq, if_pos hle,
              if_pos hb, if_pos h3, hwalk, if_true]
            exact ih (i + 1) (p ++ [b]) _ _ hrest'
          · have h3 : ¬(i + 1 == value.length || reBoundary W (value.drop (i + 1))) = true := by
              simp [heq, hb]
            simp only [lmGoChecked, lmGo, if_pos h1, if_pos h2, if_neg heq, if_pos hle,
              if_neg hb, if_neg h3]
            exact ih (i + 1) (p ++ [b]) _ _ hrest'
      · simp only [lmGoChecked, lmGo, if_pos h1, if_neg h2]
        exact ih (i + 1) (p ++ [b]) _ _ hrest'
    · simp [lmGoChecked, lmGo, if_neg h1]

/-! ### Helper lemmas about the boundary-aware scanner -/

lemma dropConsumed_suffix (bound : Nat) : ∀ l : List Nat, dropConsumed bound l <:+ l := by
  intro l
  induction l with
  | nil => simp [dropConsumed]
  | cons m seeds ih =>
    by_cases hm : m ≤ bound
    · simp only [dropConsumed, if_pos hm]
      exact ih.trans (List.suffix_cons m seeds)
    · simp [dropConsumed, if_neg hm]

lemma dropConsumed_gt (bound : Nat) :
    ∀ l : List Nat, List.Pairwise (· ≤ ·) l → ∀ m ∈ dropConsumed bound l, bound < m := by
  intro l
  induction l with
  | nil => intro _ m hm; simp [dropConsumed] at hm
  | cons x seeds ih =>
    intro hp m hm
    obtain ⟨hx, hps⟩ := List.pairwise_cons.mp hp
    by_cases hxb : x ≤ bound
    · simp only [dropConsumed, if_pos hxb] at hm
      exact ih hps m hm
    · simp only [dropConsumed, if_neg hxb] at hm
      rcases List.mem_cons.mp hm with rfl | hmem
      · omega
      · have := hx m hmem
        omega

lemma fmFind_success (fst : List (List Nat)) (W : Nat → Bool) (h : List Nat) :
    ∀ (seeds : List Nat) (sk : Nat) (s : Scratch) (seeds1 : List Nat) (sk1 : Nat) (s1 : Scratch),
      sk ≤ 1 → fmFind fst W h seeds sk s = (some (seeds1, sk1), s1) →
      ∃ m, (m :: seeds1) <:+ seeds ∧ sk1 ≤ 1 ∧ s1.startcache = m + sk1 ∧
        1 ≤ s1.keycache.length := by
  intro seeds
  induction seeds with
  | nil =>
    intro sk s seeds1 sk1 s1 _ hf
    simp [fmFind] at hf
  | cons m seeds ih =>
    intro sk s seeds1 sk1 s1 hsk hf
    simp only [fmFind] at hf
    by_cases hs : (longestMatchAt fst W h (m + sk) s).1.isSome = true
    · rw [if_pos hs] at hf
      obtain ⟨hse, hsk1, hs1⟩ : seeds = seeds1 ∧ sk = sk1 ∧ (longestMatchAt fst W h (m + sk) s).2 = s1 := by
        have h1 := congrArg Prod.fst hf
        have h2 := congrArg Prod.snd hf
        simp at h1 h2
        exact ⟨h1.1, h1.2, h2⟩
      obtain ⟨n, hn⟩ := Option.isSome_iff_exists.mp hs
      obtain ⟨hst, hkc, hn1, hnle⟩ := lm_props hn
      refine ⟨m, ?_, by omega, ?_, ?_⟩
      · rw [← hse]
      · rw [← hs1, hst, hsk1]
      · rw [← hs1, hkc, List.length_take]
        have := List.length_drop (m + sk) h
        omega
    · rw [if_neg hs] at hf
      obtain ⟨m', hsuf, hsk1, hst, hkl⟩ := ih 1 _ seeds1 sk1 s1 (Nat.le_refl 1) hf
      exact ⟨m', hsuf.trans (List.suffix_cons m seeds), hsk1, hst, hkl⟩

lemma fmRun_sep (fst : List (List Nat)) (W : Nat → Bool) (h : List Nat) :
    ∀ (fuel : Nat) (seeds : List Nat) (sk : Nat) (s : Scratch) (B : Nat),
      sk ≤ 1 → List.Pairwise (· ≤ ·) seeds → (∀ m ∈ seeds, B ≤ m) →
      (∀ q ∈ (fmRun fst W h fuel seeds sk s).1, B ≤ q.1) ∧
        List.Chain' (fun a b : Nat × Nat => a.1 + a.2 < b.1) (fmRun fst W h fuel seeds sk s).1 := by
  intro fuel
  induction fuel with
  | zero => intro seeds sk s B _ _ _; simp [fmRun]
  | succ fuel ih =>
    intro seeds sk s B hsk hpair hlb
    rcases hfm : fmFind fst W h seeds sk s with ⟨found, s1⟩
    cases found with
    | none => simp [fmRun, hfm]
    | some pr =>
      rcases pr with ⟨seeds1, sk1⟩
      obtain ⟨m, hsuf, hsk1, hst, hkl⟩ := fmFind_success fst W h seeds sk s seeds1 sk1 s1 hsk hfm
      have hmem : m ∈ seeds := hsuf.sublist.subset (List.mem_cons_self m seeds1)
      have hpair1 : List.Pairwise (· ≤ ·) seeds1 :=
        hpair.sublist ((List.sublist_cons_self m seeds1).trans hsuf.sublist)
      set x := s1.startcache with hx
      set l := s1.keycache.length with hl
      have hx0 : B ≤ x := by
        rw [hst]
        have := hlb m hmem
        omega
      set seeds2 := dropConsumed (x + l) seeds1 with hs2
      have hpair2 : List.Pairwise (· ≤ ·) seeds2 :=
        hpair1.sublist (dropConsumed_suffix (x + l) seeds1).sublist
      have hlb2 : ∀ m' ∈ seeds2, x + l + 1 ≤ m' := by
        intro m' hm'
        have := dropConsumed_gt (x + l) seeds1 hpair1 m' hm'
        omega
      obtain ⟨hilb, hichain⟩ := ih seeds2 sk1 s1 (x + l + 1) hsk1 hpair2 hlb2
      constructor
      · intro q hq
        simp only [fmRun, hfm] at hq
        rcases List.mem_cons.mp hq with rfl | hmem'
        · exact hx0
        · have := hilb q hmem'
          omega
      · simp only [fmRun, hfm]
        refine List.chain'_cons'.mpr ⟨?_, hichain⟩
        intro y hy
        have : y ∈ (fmRun fst W h fuel seeds2 sk1 s1).1 := List.mem_of_mem_head? hy
        have := hilb y this
        omega

lemma fmRun_seed (fst : List (List Nat)) (W : Nat → Bool) (h : List Nat) :
    ∀ (fuel : Nat) (seeds : List Nat) (sk : Nat) (s : Scratch),
      sk ≤ 1 → (∀ m ∈ seeds, seedByte (h.getD m 0) = true) →
      ∀ q ∈ (fmRun fst W h fuel seeds sk s).1,
        seedByte (h.getD q.1 0) = true ∨
          (1 ≤ q.1 ∧ seedByte (h.getD (q.1 - 1) 0) = true) := by
  intro fuel
  induction fuel with
  | zero => intro seeds sk s _ _ q hq; simp [fmRun] at hq
  | succ fuel ih =>
    intro seeds sk s hsk hseed q hq
    rcases hfm : fmFind fst W h seeds sk s with ⟨found, s1⟩
    cases found with
    | none => simp [fmRun, hfm] at hq
    | some pr =>
      rcases pr with ⟨seeds1, sk1⟩
      obtain ⟨m, hsuf, hsk1, hst, _⟩ := fmFind_success fst W h seeds sk s seeds1 sk1 s1 hsk hfm
      have hmem : m ∈ seeds := hsuf.sublist.subset (List.mem_cons_self m seeds1)
      have hseed1 : ∀ m' ∈ seeds1, seedByte (h.getD m' 0) = true := fun m' hm' =>
        hseed m' (hsuf.sublist.subset (List.mem_cons_of_mem m hm'))
      have hseed2 : ∀ m' ∈ dropConsumed (s1.startcache + s1.keycache.length) seeds1,
          seedByte (h.getD m' 0) = true := fun m' hm' =>
        hseed1 m' ((dropConsumed_suffix _ seeds1).sublist.subset hm')
      simp only [fmRun, hfm] at hq
      rcases List.mem_cons.mp hq with rfl | hmem'
      · interval_cases sk1
        · left
          rw [hst]
          simpa using hseed m hmem
        · right
          constructor
          · omega
          · rw [hst]
            simpa using hseed m hmem
      · exact ih _ sk1 s1 hsk1 hseed2 q hmem'

lemma seedPositions_pairwise (h : List Nat) :
    List.Pairwise (· ≤ ·) (0 :: seedPositions h) := by
  refine List.pairwise_cons.mpr ⟨fun m _ => Nat.zero_le m, ?_⟩
  exact ((List.pairwise_lt_range h.length).filter _).imp Nat.le_of_lt

lemma seedPositions_seed (h : List Nat) :
    ∀ m ∈ seedPositions h, seedByte (h.getD m 0) = true := by
  intro m hm
  exact (List.mem_filter.mp hm).2

lemma fmRun_head_fail (fst : List (List Nat)) (W : Nat → Bool) (h : List Nat)
    (fuel : Nat) (seeds : List Nat) (s : Scratch)
    (hn : (longestMatchAt fst W h 0 s).1 = none) :
    fmRun fst W h (fuel + 1) (0 :: seeds) 0 s =
      fmRun fst W h (fuel + 1) seeds 1 (longestMatchAt fst W h 0 s).2 := by
  have hfind : fmFind fst W h (0 :: seeds) 0 s =
      fmFind fst W h seeds 1 (longestMatchAt fst W h 0 s).2 := by
    simp [fmFind, hn]
  simp only [fmRun, hfind]

lemma fmRun_head_success (fst : List (List Nat)) (W : Nat → Bool) (h : List Nat)
    (fuel : Nat) (seeds : List Nat) (s : Scratch) (n : Nat)
    (hn : (longestMatchAt fst W h 0 s).1 = some n) :
    (fmRun fst W h (fuel + 1) (0 :: seeds) 0 s).1 =
      ((longestMatchAt fst W h 0 s).2.startcache,
        (longestMatchAt fst W h 0 s).2.keycache.length) ::
        (fmRun fst W h fuel
          (dropConsumed ((longestMatchAt fst W h 0 s).2.startcache +
            (longestMatchAt fst W h 0 s).2.keycache.length) seeds) 0
          (longestMatchAt fst W h 0 s).2).1 := by
  have hfind : fmFind fst W h (0 :: seeds) 0 s =
      (some (seeds, 0), (longestMatchAt fst W h 0 s).2) := by
    simp [fmFind, hn]
  simp only [fmRun, hfind]

lemma getD_drop_zero (l : List Nat) (n : Nat) : (l.drop n).getD 0 0 = l.getD n 0 := by
  simp [List.getD_eq_getElem?_getD, List.getElem?_drop]

lemma asciiWordChar_false_of_ge {b : Nat} (hb : 128 ≤ b) : asciiWordChar b = false := by
  rcases hcb : asciiWordChar b with _ | _
  · rfl
  · exfalso
    simp only [asciiWordChar, Bool.or_eq_true, Bool.and_eq_true, decide_eq_true_eq,
      beq_iff_eq] at hcb
    omega

lemma reBoundary_head_not_word {W : Nat → Bool} {l : List Nat}
    (hW : ∀ c, c < 128 → W c = asciiWordChar c) (h : reBoundary W l = true) :
    asciiWordChar (l.getD 0 0) = false := by
  cases l with
  | nil => simp [reBoundary, utf8Decode1] at h
  | cons b0 rest =>
    show asciiWordChar b0 = false
    by_cases hb : b0 < 128
    · have hdec : utf8Decode1 (b0 :: rest) = some b0 := by simp [utf8Decode1, hb]
      simp only [reBoundary, hdec, Bool.not_eq_eq_eq_not, Bool.not_true] at h
      rw [← hW b0 hb]
      exact h
    · exact asciiWordChar_false_of_ge (by omega)

/-! ### Claim theorems -/

/-- C1: if keys `K1` and `K2` are both stored in the FST, both match at
`start` (each is a prefix of `text[start..]` whose end satisfies the engine's
acceptance boundary), and `K1` is a proper prefix of `K2`, then
`longest_match_at(text, start)` succeeds with a length at least `K2`'s and
never `K1`'s; and when no accepted candidate is longer than `K2`, the result
is exactly `K2.length`. -/
theorem longest_match_longer_key (fst : List (List Nat)) (W : Nat → Bool)
    (text : List Nat) (start : Nat) (s : Scratch) (K1 K2 v1 v2 : List Nat)
    (_h1 : K1 ++ SENTINEL :: v1 ∈ fst) (h2 : K2 ++ SENTINEL :: v2 ∈ fst)
    (hp2 : ∃ t, K2 ++ t = text.drop start)
    (_hb1 : K1.length = (text.drop start).length ∨
      reBoundary W ((text.drop start).drop K1.length) = true)
    (hb2 : K2.length = (text.drop start).length ∨
      reBoundary W ((text.drop start).drop K2.length) = true)
    (hpp : ∃ t, K1 ++ t = K2) (hne : K1 ≠ K2) :
    (∃ n, (longestMatchAt fst W text start s).1 = some n ∧
        K2.length ≤ n ∧ K1.length < n) ∧
      ((∀ m, acceptedB fst W (text.drop start) m = true → m ≤ K2.length) →
        (longestMatchAt fst W text start s).1 = some K2.length) := by
  obtain ⟨t2, ht2⟩ := hp2
  obtain ⟨t1, ht1⟩ := hpp
  have hlt : K1.length < K2.length := by
    rcases t1 with _ | ⟨c, t1⟩
    · exact absurd (by simpa using ht1) hne
    · rw [← ht1]
      simp
  have hk2len : K2.length ≤ (text.drop start).length := by
    rw [← ht2]
    simp
  have htake2 : (text.drop start).take K2.length = K2 := by
    rw [← ht2, List.take_left]
  have hsent2 : findInput fst ((text.drop start).take K2.length) SENTINEL = true := by
    rw [htake2]
    exact findInput_true_of_mem h2 ⟨v2, by simp⟩
  have hacc2 : acceptedB fst W (text.drop start) K2.length = true :=
    (acceptedB_iff _ _ _ _).mpr ⟨by omega, hk2len, hsent2, hb2⟩
  obtain ⟨m, hm, hm2⟩ := lm_complete (s := s) hacc2
  refine ⟨⟨m, hm, hm2, by omega⟩, ?_⟩
  intro hmax
  have hsound := lm_sound hm
  have hle := hmax m hsound
  have heq : m = K2.length := by omega
  rw [← heq]
  exact hm

/-- C1 (witness): with keys `a` and `a-b` stored and haystack `a-b`, both
match at 0 with accepted boundaries and the engine returns a length that is
at least 3 and not 1. -/
theorem longest_match_longer_key_witness :
    ∃ n, (longestMatchAt [[97, 0, 117], [97, 45, 98, 0, 118]] asciiWordChar
        [97, 45, 98] 0 ⟨[], [], 0⟩).1 = some n ∧ 3 ≤ n ∧ 1 < n :=
  (longest_match_longer_key [[97, 0, 117], [97, 45, 98, 0, 118]] asciiWordChar
    [97, 45, 98] 0 ⟨[], [], 0⟩ [97] [97, 45, 98] [117] [118]
    (by decide) (by decide) ⟨[], by decide⟩ (Or.inr (by decide)) (Or.inl (by decide))
    ⟨[45, 98], by decide⟩ (by decide)).1

/-- C2: whenever `longest_match_at` returns a match length `n`, the match
either ends exactly at the end of `text[start..]` or the byte immediately
after it lies outside the ASCII word class `[A-Za-z0-9_]`; `W` is any word
table agreeing with the ASCII class on ASCII codepoints, as the Unicode `\w`
does.  In particular a stored key is never matched strictly inside a longer
run of ASCII word bytes. -/
theorem longestMatchAt_boundary (fst : List (List Nat)) (W : Nat → Bool)
    (text : List Nat) (start : Nat) (s : Scratch) (n : Nat)
    (hW : ∀ c, c < 128 → W c = asciiWordChar c)
    (h : (longestMatchAt fst W text start s).1 = some n) :
    n = (text.drop start).length ∨
      asciiWordChar ((text.drop start).getD n 0) = false := by
  have hacc := lm_sound h
  obtain ⟨_, _, _, h4⟩ := (acceptedB_iff _ _ _ _).mp hacc
  rcases h4 with h4 | h4
  · exact Or.inl h4
  · right
    rw [← getD_drop_zero]
    exact reBoundary_head_not_word hW h4

/-- C2 (witness): key `a` stored, haystack `a-`; the engine matches length 1
and the following byte `-` is outside the ASCII word class. -/
theorem longestMatchAt_boundary_witness :
    (1 : Nat) = (([97, 45] : List Nat).drop 0).length ∨
      asciiWordChar ((([97, 45] : List Nat).drop 0).getD 1 0) = false :=
  longestMatchAt_boundary [[97, 0, 117]] asciiWordChar [97, 45] 0 ⟨[], [], 0⟩ 1
    (fun _ _ => rfl) (by decide)

/-- C3 (counterexample): the claim "on a `none` return the scratch is
cleared" fails: after a successful call on haystack `a` (key `a` stored), a
second call on haystack `z` returns `none` yet the scratch still holds the
previous key and value. -/
theorem longestMatchAt_none_scratch_cex :
    (longestMatchAt [[97, 0, 118]] asciiWordChar [122] 0
        (longestMatchAt [[97, 0, 118]] asciiWordChar [97] 0 ⟨[], [], 0⟩).2).1 = none ∧
      (longestMatchAt [[97, 0, 118]] asciiWordChar [122] 0
        (longestMatchAt [[97, 0, 118]] asciiWordChar [97] 0 ⟨[], [], 0⟩).2).2.keycache =
        [97] ∧
      (longestMatchAt [[97, 0, 118]] asciiWordChar [122] 0
        (longestMatchAt [[97, 0, 118]] asciiWordChar [97] 0 ⟨[], [], 0⟩).2).2.valuecache =
        [118] := by decide

/-- C3 (amended): a call of `longest_match_at` that returns `none` leaves the
scratch exactly as it was before the call — the scratch is cleared (and
immediately repopulated) only when a candidate is accepted, which forces a
`some` return. -/
theorem longestMatchAt_none_scratch (fst : List (List Nat)) (W : Nat → Bool)
    (text : List Nat) (start : Nat) (s : Scratch)
    (h : (longestMatchAt fst W text start s).1 = none) :
    (longestMatchAt fst W text start s).2 = s :=
  lm_none_eq h

/-- C3 (witness): on haystack `z` with key `a` stored, the call fails and an
arbitrary pre-existing scratch passes through unchanged. -/
theorem longestMatchAt_none_scratch_witness :
    (longestMatchAt [[97, 0, 118]] asciiWordChar [122] 0 ⟨[5], [6], 7⟩).2 =
      ⟨[5], [6], 7⟩ :=
  longestMatchAt_none_scratch [[97, 0, 118]] asciiWordChar [122] 0 ⟨[5], [6], 7⟩
    (by decide)

/-- C10: for `start ≤ text.len()` the engine is safe: the walk with every
Rust slice-bound obligation made explicit returns normally with the same
result (no out-of-bounds access), and the post-sentinel value walk always
stops at a final node or at a node without transitions within
`maxRecLen + 1` steps. -/
theorem longestMatchAt_safe (fst : List (List Nat)) (W : Nat → Bool)
    (text : List Nat) (start : Nat) (s : Scratch) (h : start ≤ text.length) :
    longestMatchAtChecked fst W text start s =
        some (longestMatchAt fst W text start s) ∧
      ∀ p, (valueWalk fst (maxRecLen fst + 1) p).2 = true := by
  constructor
  · unfold longestMatchAtChecked longestMatchAt
    rw [if_pos h]
    exact lmGoChecked_eq fst W (text.drop start) start (text.drop start) 0 [] none s
      (List.drop_zero _).symm
  · exact valueWalk_std fst

/-- C10 (witness): a concrete in-bounds call runs the checked walk to the
same result, and a concrete value walk stops properly. -/
theorem longestMatchAt_safe_witness :
    longestMatchAtChecked [[97, 0, 117]] asciiWordChar [97] 0 ⟨[], [], 0⟩ =
        some (longestMatchAt [[97, 0, 117]] asciiWordChar [97] 0 ⟨[], [], 0⟩) ∧
      (valueWalk [[97, 0, 117]] (maxRecLen [[97, 0, 117]] + 1) [97, 0]).2 = true := by
  have h := longestMatchAt_safe [[97, 0, 117]] asciiWordChar [97] 0 ⟨[], [], 0⟩
    (by decide)
  exact ⟨h.1, h.2 [97, 0]⟩

/-- C4 (counterexample): the claim "every yielded match offset is 0 or one
byte after a seed-class byte" fails.  With keys `ab` and `,y` stored and
haystack `ab x,y`, the first probe (offset 0) succeeds so `skip` stays 0; the
scanner then probes the surviving seed 4 at `4 + 0` and yields offset 4,
which is neither 0 nor preceded by a seed-class byte (`h[3] = x`).  All bytes
involved are ASCII, where `asciiWordChar` agrees with the regex word table. -/
theorem fstMatches_seed_offsets_cex :
    (4, 2) ∈ fstMatches [[97, 98, 0, 117], [44, 121, 0, 118]] asciiWordChar
        [97, 98, 32, 120, 44, 121] ⟨[], [], 0⟩ ∧
      (4 : Nat) ≠ 0 ∧
      seedByte ([97, 98, 32, 120, 44, 121].getD (4 - 1) 0) = false := by decide

/-- C4 (amended): the scanner probes each seed at `seed + skip`, where `skip`
is 0 until the first failed probe and 1 afterwards; consequently every
yielded match offset is 0, or sits one byte after a seed-class byte, or (when
no probe has failed yet) sits exactly at a seed-class byte position. -/
theorem fstMatches_seed_offsets (fst : List (List Nat)) (W : Nat → Bool)
    (h : List Nat) (s : Scratch) :
    ∀ q ∈ fstMatches fst W h s,
      q.1 = 0 ∨ seedByte (h.getD q.1 0) = true ∨
        (1 ≤ q.1 ∧ seedByte (h.getD (q.1 - 1) 0) = true) := by
  intro q hq
  rw [fstMatches] at hq
  by_cases hr : (longestMatchAt fst W h 0 s).1 = none
  · rw [show h.length + 2 = (h.length + 1) + 1 from rfl,
      fmRun_head_fail fst W h (h.length + 1) (seedPositions h) s hr] at hq
    rcases fmRun_seed fst W h ((h.length + 1) + 1) (seedPositions h) 1
      (longestMatchAt fst W h 0 s).2 (by omega) (seedPositions_seed h) q hq with h1 | h1
    · exact Or.inr (Or.inl h1)
    · exact Or.inr (Or.inr h1)
  · obtain ⟨n, hn⟩ := Option.ne_none_iff_exists'.mp hr
    rw [show h.length + 2 = (h.length + 1) + 1 from rfl,
      fmRun_head_success fst W h (h.length + 1) (seedPositions h) s n hn] at hq
    rcases List.mem_cons.mp hq with rfl | hmem
    · left
      exact (lm_props hn).1
    · have hseed2 : ∀ m ∈ dropConsumed ((longestMatchAt fst W h 0 s).2.startcache +
          (longestMatchAt fst W h 0 s).2.keycache.length) (seedPositions h),
          seedByte (h.getD m 0) = true := fun m hm =>
        seedPositions_seed h m ((dropConsumed_suffix _ _).sublist.subset hm)
      rcases fmRun_seed fst W h (h.length + 1) _ 0 (longestMatchAt fst W h 0 s).2
        (by omega) hseed2 q hmem with h1 | h1
      · exact Or.inr (Or.inl h1)
      · exact Or.inr (Or.inr h1)

/-- C4 (amended, witness): on the counterexample haystack the yielded offset
4 sits exactly at the seed-class byte `,`. -/
theorem fstMatches_seed_offsets_witness :
    (4 : Nat) = 0 ∨
      seedByte ([97, 98, 32, 120, 44, 121].getD 4 0) = true ∨
        (1 ≤ 4 ∧ seedByte ([97, 98, 32, 120, 44, 121].getD (4 - 1) 0) = true) :=
  fstMatches_seed_offsets [[97, 98, 0, 117], [44, 121, 0, 118]] asciiWordChar
    [97, 98, 32, 120, 44, 121] ⟨[], [], 0⟩ (4, 2) (by decide)

/-- C5: successive matches yielded by the scanner never overlap and start
strictly later: for successive `(s1, l1)` and `(s2, l2)` read from the
scratch at yield time, `s1 + l1 ≤ s2` and `s1 < s2`. -/
theorem fstMatches_nonoverlap (fst : List (List Nat)) (W : Nat → Bool)
    (h : List Nat) (s : Scratch) :
    List.Chain' (fun a b : Nat × Nat => a.1 + a.2 ≤ b.1 ∧ a.1 < b.1)
      (fstMatches fst W h s) := by
  have hchain := (fmRun_sep fst W h (h.length + 2) (0 :: seedPositions h) 0 s 0
    (by omega) (seedPositions_pairwise h) (fun m _ => Nat.zero_le m)).2
  rw [fstMatches]
  exact hchain.imp (fun {a b} hab => ⟨by omega, by omega⟩)

/-- C6: evaluation at the failing input `"\"x"` (bytes 34 92 34 120 34), a
standard JSON string containing an escaped quote that starts at offset 0.
The quote scanner emits structural quotes at 0, 2 and 4 — the `lastescape`
state conflates "no escape seen" with "escape at index 0", so the backslash
at index 1 is mistaken for the second half of a `\\` pair and the escaped
quote at index 2 is treated as structural — yielding the range `(0, 3)`,
while standard JSON tokenization yields the single string range `(0, 5)`. -/
theorem jsonquotes_divergence :
    jsonquotesRanges [34, 92, 34, 120, 34] = [(0, 3)] ∧
      jsonStringTokens [34, 92, 34, 120, 34] = some [(0, 5)] := by decide

/-- C7: evaluation of `process_line` at key `ab` (value `u`) and line
`ab cd`.  The driver writes `a` (the gap `input[0..=0]`, inclusive of the
match's first byte) during the scanner loop without any rendered match — the
render write is commented out — and then re-scans the whole line, writing
` cd` and silently dropping the matched span, for a total output `a cd`
instead of the specified `<ab|u> cd`. -/
theorem processLine_divergence :
    processLine [[97, 98, 0, 117]] asciiWordChar [97, 98, 32, 99, 100] ⟨[], [], 0⟩ =
      [97, 32, 99, 100] := by decide

/-- C8: in build mode, when the output path already exists the builder fails
with a user-visible error and the file system is unchanged (the pre-existence
check of the builder shell runs before `build_fstsed` ever calls
`File::create`). -/
theorem buildMode_no_overwrite (fs : FileSys) (path : String) (content : List Nat)
    (h : fsExists fs path = true) :
    (buildMode fs path content).1 = fs ∧
      ∃ msg, (buildMode fs path content).2 = Except.error msg := by
  refine ⟨?_, "output path already exists", ?_⟩ <;> simp [buildMode, h]

/-- C8 (witness): building onto an existing path `db` errors and leaves the
file intact. -/
theorem buildMode_no_overwrite_witness :
    (buildMode [("db", [1])] "db" [2]).1 = [("db", [1])] ∧
      ∃ msg, (buildMode [("db", [1])] "db" [2]).2 = Except.error msg :=
  buildMode_no_overwrite [("db", [1])] "db" [2] (by decide)

/-- C9 (counterexample): the claim "in JSON search mode color is forced off
and the template is never bookended with `ESC[1;31m` / `ESC[0;0m`" fails:
`runjson` passes the colormode resolved in `main` straight to `FstSed::new`,
so with `--color always` the engine template is ANSI-bookended. -/
theorem runjsonTemplate_color_cex :
    runjsonTemplate ArgsColorChoiceM.always false none =
        ansiPre ++ defaultTemplate ++ ansiPost ∧
      runjsonTemplate ArgsColorChoiceM.always false none ≠ defaultTemplate := by decide

/-- C9 (amended): in JSON search mode the engine uses the same resolved
color mode as the other modes — the template is ANSI-bookended exactly when
the `-C` flag is `always`, or `auto` with stdout a tty, and plain otherwise;
JSON mode does not force color off. -/
theorem runjsonTemplate_follows_colormode (user : Option (List Nat)) (istty : Bool) :
    runjsonTemplate ArgsColorChoiceM.always istty user =
        ansiPre ++ user.getD defaultTemplate ++ ansiPost ∧
      runjsonTemplate ArgsColorChoiceM.never istty user = user.getD defaultTemplate ∧
      runjsonTemplate ArgsColorChoiceM.auto true user =
        ansiPre ++ user.getD defaultTemplate ++ ansiPost ∧
      runjsonTemplate ArgsColorChoiceM.auto false user = user.getD defaultTemplate := by
  refine ⟨?_, ?_, ?_, ?_⟩ <;> simp [runjsonTemplate, resolveColor, mkTemplate]
